import Mathlib

/-!
# vault-autounseal: a model of `main.go` and its properties

The program is one function, `main`, a linear script: load the configuration,
probe the vault's health, reset the unseal state, pick `Threshold` distinct key
indexes at random, submit the picked keys until the vault reports unsealed.

Everything `main` obtains from outside (the configuration file, the HTTP
responses, the successive values of `rand.Int()`) is gathered in a `World`;
`main` is then a function of the world. The only unbounded loop is the key
picking loop, which is given a fuel: the number of random draws it may use.
-/

namespace VaultAutounseal

/-! ## Data -/

/-- The anonymous struct `config` of `main`: the decoded `config.json`. -/
structure Config where
  Endpoint : String
  Keys : List String
  deriving DecidableEq, Repr

/-- The struct `UnsealResponse`: fields `sealed`, `t` and `n` of a response of
`/v1/sys/unseal`. `Threshold` and `Shares` are Go `int`s: they may be negative. -/
structure UnsealResponse where
  Sealed : Bool
  Threshold : Int
  Shares : Int
  deriving DecidableEq, Repr

/-- What lines 14 to 24 get from the file system: `ioutil.ReadFile` fails,
`json.Unmarshal` of the file fails, or a configuration is loaded. -/
inductive ConfigFile where
  | readError (err : String)
  | unmarshalError (err : String)
  | loaded (config : Config)
  deriving DecidableEq, Repr

/-- What `cl.Do` gives for the `HEAD /v1/sys/health` request: a transport error
or a response, of which only `StatusCode` is read. -/
inductive HealthResult where
  | doError (err : String)
  | response (StatusCode : Int)
  deriving DecidableEq, Repr

/-- What a `PUT /v1/sys/unseal` request gives: `cl.Do` fails, `ioutil.ReadAll`
of the body fails, `json.Unmarshal` of the body fails, or an `UnsealResponse`
is decoded. -/
inductive DoResult where
  | doError (err : String)
  | readError (err : String)
  | unmarshalError (err : String)
  | ok (result : UnsealResponse)
  deriving DecidableEq, Repr

/-- Everything `main` reads from outside.

* `configFile`: the outcome of loading `./config.json`;
* `newRequestError endpoint`: the error of `http.NewRequest`, if any. The
  methods are the constants `HEAD` and `PUT` and the URLs are the endpoint
  followed by `/v1/sys/health` or `/v1/sys/unseal`, so whether the URL parses
  is decided by the endpoint;
* `healthResult`, `resetResult`: the outcome of the health and of the reset
  request;
* `unsealResult i`: the outcome of the submit request of loop index `i` (from 0);
* `randInt k`: the value of the `k`-th call of `rand.Int()` (from 0), which is
  never negative. -/
structure World where
  configFile : ConfigFile
  newRequestError : String → Option String
  healthResult : HealthResult
  resetResult : DoResult
  unsealResult : Nat → DoResult
  randInt : Nat → Nat

/-- A request handed to `cl.Do`. The body of a submit request is the JSON
object whose only field `key` is the key share. -/
inductive Call where
  | healthCheck
  | resetState
  | submitKey (key : String)
  deriving DecidableEq, Repr

/-- How `main` ends: it returns (exit status 0; `lastLog` is the line logged
just before), `log.Fatal` (exit status 1), `log.Panic`, or a panic of the Go
runtime. -/
inductive Exit where
  | returned (lastLog : String)
  | logFatal (msg : String)
  | logPanic (msg : String)
  | runtimeError (msg : String)
  deriving DecidableEq, Repr

/-- A run of `main`: the requests handed to `cl.Do`, in order, and how the run
ended; `exit = none` when the key picking loop was still running when the fuel
ran out. -/
structure Run where
  calls : List Call
  exit : Option Exit
  deriving DecidableEq, Repr

/-- The run that ends at once. -/
def Run.stop (e : Exit) : Run := ⟨[], some e⟩

/-- The run that first makes the call `c` and then goes on as `r`. -/
def Run.after (c : Call) (r : Run) : Run := ⟨c :: r.calls, r.exit⟩

/-- The keys carried by the submit requests of a trace, in order. -/
def submittedKeys : List Call → List String
  | [] => []
  | Call.submitKey key :: cs => key :: submittedKeys cs
  | _ :: cs => submittedKeys cs

/-! ## The program -/

/-- Lines 94 to 99: the scan of `keyIndexes` for `n`. -/
def keyExists (keyIndexes : List Nat) (n : Nat) : Bool :=
  keyIndexes.foldl (fun found e => if e == n then true else found) false

/-- Lines 90 to 104, the key picking loop. `pos` counts the calls of
`rand.Int()` made so far and `fuel` bounds the iterations still allowed;
`none` means the loop has not finished within the fuel. `%` by a zero
`len(config.Keys)` is the runtime panic of Go. -/
def pickKeys (neededKeys : Int) (numKeys : Nat) (randInt : Nat → Nat) :
    Nat → Nat → List Nat → Option (Except String (List Nat))
  | 0, _, keyIndexes =>
    if (keyIndexes.length : Int) < neededKeys then none else some (.ok keyIndexes)
  | fuel + 1, pos, keyIndexes =>
    if (keyIndexes.length : Int) < neededKeys then
      if numKeys = 0 then some (.error "integer divide by zero")
      else
        let n := randInt pos % numKeys
        if !keyExists keyIndexes n then
          pickKeys neededKeys numKeys randInt fuel (pos + 1) (keyIndexes ++ [n])
        else
          pickKeys neededKeys numKeys randInt fuel (pos + 1) keyIndexes
    else some (.ok keyIndexes)

/-- Lines 107 to 143: the submission loop over the picked indexes, from loop
index `i`, and the final `log.Fatal`. `json.Marshal` of a struct with one
string field cannot fail. -/
def attemptUnseal (config : Config) (w : World) : Nat → List Nat → Run
  | _, [] => Run.stop (.logFatal "failed to unseal vault")
  | i, keyIndex :: rest =>
    match config.Keys[keyIndex]? with
    | none => Run.stop (.runtimeError "index out of range")
    | some key =>
      match w.newRequestError config.Endpoint with
      | some err => Run.stop (.logPanic err)
      | none =>
        Run.after (.submitKey key) (
          match w.unsealResult i with
          | .doError err => Run.stop (.logFatal ("failed to unseal: " ++ err))
          | .readError err => Run.stop (.logPanic ("failed to parse response: " ++ err))
          | .unmarshalError err =>
            Run.stop (.logPanic ("failed to unmarshal response: " ++ err))
          | .ok result =>
            if !result.Sealed then Run.stop (.returned "vault unsealed, exiting")
            else attemptUnseal config w (i + 1) rest)

/-- Lines 81 to 143: the checks on `neededKeys`, the key picking and the
submission loop. -/
def unsealWith (config : Config) (w : World) (fuel : Nat) (neededKeys : Int) : Run :=
  if neededKeys = -1 then Run.stop (.logPanic "neededKeys not changed!")
  else if neededKeys > (config.Keys.length : Int) then
    Run.stop (.logFatal "there aren't enough keys in the config for proper unsealing")
  else
    match pickKeys neededKeys config.Keys.length w.randInt fuel 0 [] with
    | none => ⟨[], none⟩
    | some (.error msg) => Run.stop (.runtimeError msg)
    | some (.ok keyIndexes) => attemptUnseal config w 0 keyIndexes

/-- Lines 50 to 143: the reset request and what follows it. `json.Marshal` of a
struct with one bool field cannot fail. -/
def resetUnsealState (config : Config) (w : World) (fuel : Nat) : Run :=
  match w.newRequestError config.Endpoint with
  | some err => Run.stop (.logPanic err)
  | none =>
    Run.after .resetState (
      match w.resetResult with
      | .doError err => Run.stop (.logFatal ("failed to reset unseal state: " ++ err))
      | .readError err => Run.stop (.logPanic ("failed to parse response: " ++ err))
      | .unmarshalError err =>
        Run.stop (.logPanic ("failed to unmarshal response: " ++ err))
      | .ok result => unsealWith config w fuel result.Threshold)

/-- The function `main`. -/
def main (w : World) (fuel : Nat) : Run :=
  match w.configFile with
  | .readError err => Run.stop (.logFatal ("failed to read configuration: " ++ err))
  | .unmarshalError err =>
    Run.stop (.logFatal ("failed to unmarshal configuration: " ++ err))
  | .loaded config =>
    match w.newRequestError config.Endpoint with
    | some err => Run.stop (.logPanic err)
    | none =>
      match w.healthResult with
      | .doError err =>
        Run.after .healthCheck (Run.stop (.logFatal ("failed to request vault health: " ++ err)))
      | .response StatusCode =>
        Run.after .healthCheck (
          if StatusCode = 503 then resetUnsealState config w fuel
          else Run.stop (.returned "vault seems to be ok. exiting"))

/-! ## The words of the specification about key selection -/

/-- The residue of the `k`-th draw modulo the number of keys. -/
def residue (randInt : Nat → Nat) (numKeys : Nat) (k : Nat) : Nat :=
  randInt k % numKeys

/-- Position `k` of the stream `r` holds a value that no earlier position holds. -/
def firstOccurrence (r : Nat → Nat) (k : Nat) : Bool :=
  (List.range k).all (fun j => r j != r k)

/-- The distinct values among the first `n` terms of the stream `r`, in order of
first occurrence. -/
def distinctValues (r : Nat → Nat) (n : Nat) : List Nat :=
  ((List.range n).filter (firstOccurrence r)).map r

/-- The number of distinct values among the first `n` terms of the stream `r`. -/
def distinctCount (r : Nat → Nat) (n : Nat) : Nat :=
  ((List.range n).map r).toFinset.card

/-! ## Sample inputs -/

/-- A configuration with five distinct key shares. -/
def sampleConfig : Config :=
  ⟨"http://127.0.0.1:8200", ["share-a", "share-b", "share-c", "share-d", "share-e"]⟩

/-- A stream of draws: 4, 9, 1, 4, 7, 3, 0, 0, ... Modulo 5 its residues are
4, 4, 1, 4, 2, 3, 0, 0, ... -/
def sampleDraws (k : Nat) : Nat := [4, 9, 1, 4, 7, 3].getD k 0

/-- A decoded submit response with the given `sealed` field. -/
def sampleResponse (Sealed : Bool) : DoResult := .ok ⟨Sealed, 3, 5⟩

/-- A world with the sample configuration and draws, a health response of the
given status code, a reset response with the given threshold and 5 shares, and
the given submit outcomes. -/
def sampleWorld (StatusCode threshold : Int) (unsealResult : Nat → DoResult) : World :=
  ⟨.loaded sampleConfig, fun _ => none, .response StatusCode, .ok ⟨true, threshold, 5⟩,
    unsealResult, sampleDraws⟩

/-- The sample world in which the reset request has the given outcome. -/
def sampleResetWorld (resetResult : DoResult) : World :=
  ⟨.loaded sampleConfig, fun _ => none, .response 503, resetResult,
    fun _ => sampleResponse true, sampleDraws⟩

/-! ## Lemmas on key selection -/

theorem keyExists_eq_true_iff (keyIndexes : List Nat) (n : Nat) :
    keyExists keyIndexes n = true ↔ n ∈ keyIndexes := by
  unfold keyExists
  have key : ∀ (l : List Nat) (b : Bool),
      l.foldl (fun found e => if e == n then true else found) b = true ↔ (b = true ∨ n ∈ l) := by
    intro l
    induction l with
    | nil => intro b; simp
    | cons a t ih =>
      intro b
      rw [List.foldl_cons, ih]
      by_cases h : a = n
      · subst h; simp
      · have h2 : ¬ n = a := fun e => h e.symm
        simp [h, h2]
  simpa using key keyIndexes false

theorem distinctValues_zero (r : Nat → Nat) : distinctValues r 0 = [] := by
  simp [distinctValues]

theorem distinctValues_succ (r : Nat → Nat) (n : Nat) :
    distinctValues r (n + 1) =
      distinctValues r n ++ (if firstOccurrence r n then [r n] else []) := by
  unfold distinctValues
  rw [List.range_succ, List.filter_append, List.map_append]
  by_cases h : firstOccurrence r n = true <;> simp [h]

theorem mem_distinctValues (r : Nat → Nat) (n v : Nat) :
    v ∈ distinctValues r n ↔ ∃ k, k < n ∧ r k = v := by
  induction n using Nat.strong_induction_on generalizing v with
  | _ n ih =>
    cases n with
    | zero => simp [distinctValues_zero]
    | succ n =>
      rw [distinctValues_succ, List.mem_append]
      constructor
      · rintro (h | h)
        · obtain ⟨k, hk, e⟩ := (ih n (Nat.lt_succ_self n) v).1 h
          exact ⟨k, Nat.lt_succ_of_lt hk, e⟩
        · by_cases hf : firstOccurrence r n = true
          · simp [hf] at h
            exact ⟨n, Nat.lt_succ_self n, h.symm⟩
          · simp [hf] at h
      · rintro ⟨k, hk, e⟩
        rcases Nat.lt_succ_iff_lt_or_eq.1 hk with hlt | heq
        · exact Or.inl ((ih n (Nat.lt_succ_self n) v).2 ⟨k, hlt, e⟩)
        · subst heq
          by_cases hf : firstOccurrence r k = true
          · right; simp [hf, e]
          · left
            have : ∃ j, j < k ∧ r j = r k := by
              simpa [firstOccurrence] using hf
            obtain ⟨j, hj, ej⟩ := this
            exact (ih k (Nat.lt_succ_self k) v).2 ⟨j, hj, ej.trans e⟩

theorem firstOccurrence_iff (r : Nat → Nat) (n : Nat) :
    firstOccurrence r n = true ↔ r n ∉ distinctValues r n := by
  rw [mem_distinctValues]
  simp [firstOccurrence]

theorem nodup_distinctValues (r : Nat → Nat) (n : Nat) : (distinctValues r n).Nodup := by
  induction n with
  | zero => simp [distinctValues_zero]
  | succ n ih =>
    rw [distinctValues_succ]
    by_cases hf : firstOccurrence r n = true
    · have hn := (firstOccurrence_iff r n).1 hf
      simp only [hf, if_true]
      exact List.Nodup.append ih (List.nodup_singleton _) (by simpa using hn)
    · simpa [hf] using ih

theorem length_distinctValues (r : Nat → Nat) (n : Nat) :
    (distinctValues r n).length = distinctCount r n := by
  unfold distinctCount
  rw [← List.toFinset_card_of_nodup (nodup_distinctValues r n)]
  congr 1
  ext v
  simp [mem_distinctValues]

theorem distinctValues_add (r : Nat → Nat) (n d : Nat) :
    ∃ s, distinctValues r (n + d) = distinctValues r n ++ s := by
  induction d with
  | zero => exact ⟨[], by simp⟩
  | succ d ih =>
    obtain ⟨s, hs⟩ := ih
    refine ⟨s ++ (if firstOccurrence r (n + d) then [r (n + d)] else []), ?_⟩
    rw [← Nat.add_assoc, distinctValues_succ, hs, List.append_assoc]

theorem length_distinctValues_mono (r : Nat → Nat) {n m : Nat} (h : n ≤ m) :
    (distinctValues r n).length ≤ (distinctValues r m).length := by
  obtain ⟨d, rfl⟩ := Nat.exists_eq_add_of_le h
  obtain ⟨s, hs⟩ := distinctValues_add r n d
  rw [hs, List.length_append]
  exact Nat.le_add_right _ _

theorem take_distinctValues_add (r : Nat → Nat) (n d T : Nat)
    (h : T ≤ (distinctValues r n).length) :
    (distinctValues r (n + d)).take T = (distinctValues r n).take T := by
  obtain ⟨s, hs⟩ := distinctValues_add r n d
  rw [hs, List.take_append_of_le_length h]

/-- Once `T` distinct values have been seen, the first `T` of them do not depend
on how far the stream is read. -/
theorem take_distinctValues_eq (r : Nat → Nat) (n m T : Nat)
    (hn : T ≤ (distinctValues r n).length) (hm : T ≤ (distinctValues r m).length) :
    (distinctValues r n).take T = (distinctValues r m).take T := by
  rcases Nat.le_total n m with h | h
  · obtain ⟨d, rfl⟩ := Nat.exists_eq_add_of_le h
    exact (take_distinctValues_add r n d T hn).symm
  · obtain ⟨d, rfl⟩ := Nat.exists_eq_add_of_le h
    exact take_distinctValues_add r m d T hm

theorem length_lt_iff (l : List Nat) (neededKeys : Int) :
    ((l.length : Int) < neededKeys) ↔ l.length < neededKeys.toNat := by
  omega

/-- The key picking loop, started at position `pos` with the distinct residues
of the draws before `pos`, finishes within `fuel` draws exactly when the draws
before `pos + fuel` hold enough distinct residues, and then returns the first
`neededKeys` of them. -/
theorem pickKeys_from (neededKeys : Int) (numKeys : Nat) (randInt : Nat → Nat)
    (hle : neededKeys ≤ (numKeys : Int)) (fuel pos : Nat)
    (h0 : (distinctValues (residue randInt numKeys) pos).length ≤ neededKeys.toNat) :
    pickKeys neededKeys numKeys randInt fuel pos (distinctValues (residue randInt numKeys) pos) =
      if neededKeys.toNat ≤ (distinctValues (residue randInt numKeys) (pos + fuel)).length then
        some (.ok ((distinctValues (residue randInt numKeys) (pos + fuel)).take neededKeys.toNat))
      else none := by
  induction fuel generalizing pos with
  | zero =>
    unfold pickKeys
    rw [Nat.add_zero]
    by_cases hlt : (distinctValues (residue randInt numKeys) pos).length < neededKeys.toNat
    · have h1 := (length_lt_iff _ neededKeys).2 hlt
      rw [if_pos h1, if_neg (Nat.not_le.2 hlt)]
    · have h1 : ¬ (((distinctValues (residue randInt numKeys) pos).length : Int) < neededKeys) :=
        fun h => hlt ((length_lt_iff _ neededKeys).1 h)
      have he : neededKeys.toNat = (distinctValues (residue randInt numKeys) pos).length := by
        omega
      rw [if_neg h1, if_pos (Nat.le_of_eq he), he, List.take_length]
  | succ fuel ih =>
    unfold pickKeys
    by_cases hlt : (distinctValues (residue randInt numKeys) pos).length < neededKeys.toNat
    · have h1 := (length_lt_iff _ neededKeys).2 hlt
      have hpos : numKeys ≠ 0 := by omega
      have hnext : (distinctValues (residue randInt numKeys) (pos + 1)).length
          ≤ neededKeys.toNat := by
        rw [distinctValues_succ, List.length_append]
        split <;> simp <;> omega
      have hstep := ih (pos + 1) hnext
      rw [show pos + 1 + fuel = pos + (fuel + 1) by omega] at hstep
      rw [if_pos h1, if_neg hpos]
      simp only []
      by_cases hf : firstOccurrence (residue randInt numKeys) pos = true
      · have hk : keyExists (distinctValues (residue randInt numKeys) pos)
            (randInt pos % numKeys) = false := by
          rw [Bool.eq_false_iff]
          intro hc
          exact (firstOccurrence_iff _ pos).1 hf ((keyExists_eq_true_iff _ _).1 hc)
        have hs : distinctValues (residue randInt numKeys) (pos + 1) =
            distinctValues (residue randInt numKeys) pos ++ [randInt pos % numKeys] := by
          rw [distinctValues_succ, if_pos hf]; rfl
        rw [hk, ← hs]
        simpa using hstep
      · have hk : keyExists (distinctValues (residue randInt numKeys) pos)
            (randInt pos % numKeys) = true := by
          rw [keyExists_eq_true_iff]
          by_contra hc
          exact hf ((firstOccurrence_iff _ pos).2 hc)
        have hs : distinctValues (residue randInt numKeys) (pos + 1) =
            distinctValues (residue randInt numKeys) pos := by
          rw [distinctValues_succ, if_neg hf, List.append_nil]
        rw [hk, ← hs]
        simpa using hstep
    · have h1 : ¬ (((distinctValues (residue randInt numKeys) pos).length : Int) < neededKeys) :=
        fun h => hlt ((length_lt_iff _ neededKeys).1 h)
      have he : neededKeys.toNat = (distinctValues (residue randInt numKeys) pos).length := by
        omega
      have hmono := length_distinctValues_mono (residue randInt numKeys)
        (Nat.le_add_right pos (fuel + 1))
      rw [if_neg h1, if_pos (by omega),
        take_distinctValues_add _ pos (fuel + 1) _ (Nat.le_of_eq he), he, List.take_length]

/-- The key picking loop as `main` starts it. -/
theorem pickKeys_eq (neededKeys : Int) (numKeys : Nat) (randInt : Nat → Nat)
    (hle : neededKeys ≤ (numKeys : Int)) (fuel : Nat) :
    pickKeys neededKeys numKeys randInt fuel 0 [] =
      if neededKeys.toNat ≤ (distinctValues (residue randInt numKeys) fuel).length then
        some (.ok ((distinctValues (residue randInt numKeys) fuel).take neededKeys.toNat))
      else none := by
  have h := pickKeys_from neededKeys numKeys randInt hle fuel 0
    (by simp [distinctValues_zero])
  simpa [distinctValues_zero] using h

/-- The residues that the loop can pick are indexes of the key list. -/
theorem take_distinctValues_lt (neededKeys : Int) (numKeys : Nat) (randInt : Nat → Nat)
    (hle : neededKeys ≤ (numKeys : Int)) (n : Nat) :
    ∀ i ∈ (distinctValues (residue randInt numKeys) n).take neededKeys.toNat, i < numKeys := by
  intro i hi
  rcases Nat.eq_zero_or_pos numKeys with h0 | hpos
  · have : neededKeys.toNat = 0 := by omega
    rw [this] at hi
    simp at hi
  · obtain ⟨k, _, e⟩ := (mem_distinctValues _ n i).1 (List.mem_of_mem_take hi)
    rw [← e]
    exact Nat.mod_lt _ hpos

/-- What the loop returns when it finishes, under the guard of `main`. -/
theorem pickKeys_ok (neededKeys : Int) (numKeys : Nat) (randInt : Nat → Nat)
    (hle : neededKeys ≤ (numKeys : Int)) (fuel : Nat) (keyIndexes : List Nat)
    (h : pickKeys neededKeys numKeys randInt fuel 0 [] = some (.ok keyIndexes)) :
    neededKeys.toNat ≤ (distinctValues (residue randInt numKeys) fuel).length ∧
    keyIndexes = (distinctValues (residue randInt numKeys) fuel).take neededKeys.toNat := by
  rw [pickKeys_eq neededKeys numKeys randInt hle fuel] at h
  by_cases hc : neededKeys.toNat ≤ (distinctValues (residue randInt numKeys) fuel).length
  · rw [if_pos hc] at h
    injection h with h
    injection h with h
    exact ⟨hc, h.symm⟩
  · rw [if_neg hc] at h
    exact absurd h (by simp)

theorem pickKeys_ok_length (neededKeys : Int) (numKeys : Nat) (randInt : Nat → Nat)
    (hle : neededKeys ≤ (numKeys : Int)) (fuel : Nat) (keyIndexes : List Nat)
    (h : pickKeys neededKeys numKeys randInt fuel 0 [] = some (.ok keyIndexes)) :
    keyIndexes.length = neededKeys.toNat := by
  obtain ⟨h1, h2⟩ := pickKeys_ok neededKeys numKeys randInt hle fuel keyIndexes h
  rw [h2, List.length_take]
  exact Nat.min_eq_left h1

theorem pickKeys_ok_nodup (neededKeys : Int) (numKeys : Nat) (randInt : Nat → Nat)
    (hle : neededKeys ≤ (numKeys : Int)) (fuel : Nat) (keyIndexes : List Nat)
    (h : pickKeys neededKeys numKeys randInt fuel 0 [] = some (.ok keyIndexes)) :
    keyIndexes.Nodup := by
  obtain ⟨_, h2⟩ := pickKeys_ok neededKeys numKeys randInt hle fuel keyIndexes h
  rw [h2]
  exact List.Nodup.sublist (List.take_sublist _ _) (nodup_distinctValues _ _)

theorem pickKeys_ok_lt (neededKeys : Int) (numKeys : Nat) (randInt : Nat → Nat)
    (hle : neededKeys ≤ (numKeys : Int)) (fuel : Nat) (keyIndexes : List Nat)
    (h : pickKeys neededKeys numKeys randInt fuel 0 [] = some (.ok keyIndexes)) :
    ∀ i ∈ keyIndexes, i < numKeys := by
  obtain ⟨_, h2⟩ := pickKeys_ok neededKeys numKeys randInt hle fuel keyIndexes h
  rw [h2]
  exact take_distinctValues_lt neededKeys numKeys randInt hle fuel

/-! ## Lemmas on the submission loop -/

theorem submittedKeys_map (ks : List String) :
    submittedKeys (ks.map Call.submitKey) = ks := by
  induction ks with
  | nil => rfl
  | cons k t ih => simp [submittedKeys, ih]

/-- The loop submits the keys of a beginning of the picked indexes, in order. -/
theorem attemptUnseal_calls (config : Config) (w : World) (keyIndexes : List Nat) (i : Nat) :
    ∃ (k : Nat) (ks : List String), k ≤ keyIndexes.length ∧
      (attemptUnseal config w i keyIndexes).calls = ks.map Call.submitKey ∧
      ks.map some = (keyIndexes.take k).map (fun j => config.Keys[j]?) := by
  induction keyIndexes generalizing i with
  | nil => exact ⟨0, [], by simp [attemptUnseal, Run.stop]⟩
  | cons a rest ih =>
    rcases hkey : config.Keys[a]? with _ | key
    · exact ⟨0, [], by simp [attemptUnseal, hkey, Run.stop]⟩
    · rcases hreq : w.newRequestError config.Endpoint with _ | err
      · rcases hres : w.unsealResult i with err | err | err | result
        · exact ⟨1, [key], by simp [attemptUnseal, hkey, hreq, hres, Run.stop, Run.after]⟩
        · exact ⟨1, [key], by simp [attemptUnseal, hkey, hreq, hres, Run.stop, Run.after]⟩
        · exact ⟨1, [key], by simp [attemptUnseal, hkey, hreq, hres, Run.stop, Run.after]⟩
        · rcases hs : result.Sealed with _ | _
          · exact ⟨1, [key], by simp [attemptUnseal, hkey, hreq, hres, hs, Run.stop, Run.after]⟩
          · obtain ⟨k, ks, hk, hcalls, hks⟩ := ih (i + 1)
            exact ⟨k + 1, key :: ks, by
              simp [attemptUnseal, hkey, hreq, hres, hs, Run.after, hk, hcalls, hks]⟩
      · exact ⟨0, [], by simp [attemptUnseal, hkey, hreq, Run.stop]⟩

/-- With indexes in range, the loop never indexes the key list out of range. -/
theorem attemptUnseal_no_runtimeError (config : Config) (w : World) (keyIndexes : List Nat)
    (i : Nat) (hlt : ∀ j ∈ keyIndexes, j < config.Keys.length) (msg : String) :
    (attemptUnseal config w i keyIndexes).exit ≠ some (.runtimeError msg) := by
  induction keyIndexes generalizing i with
  | nil => simp [attemptUnseal, Run.stop]
  | cons a rest ih =>
    have ha : a < config.Keys.length := hlt a (List.mem_cons_self a rest)
    unfold attemptUnseal
    split
    · rename_i hnone
      rw [List.getElem?_eq_none_iff] at hnone
      omega
    · split
      · simp [Run.stop]
      · split
        · simp [Run.stop, Run.after]
        · simp [Run.stop, Run.after]
        · simp [Run.stop, Run.after]
        · split
          · simp [Run.stop, Run.after]
          · simpa [Run.after] using
              ih (i + 1) (fun j hj => hlt j (List.mem_cons_of_mem a hj))

/-- One step of the loop on an index in range, when the request can be built. -/
theorem attemptUnseal_cons (config : Config) (w : World) (i a : Nat) (rest : List Nat)
    (key : String) (hkey : config.Keys[a]? = some key)
    (hreq : w.newRequestError config.Endpoint = none) :
    attemptUnseal config w i (a :: rest) =
      Run.after (.submitKey key) (
        match w.unsealResult i with
        | .doError err => Run.stop (.logFatal ("failed to unseal: " ++ err))
        | .readError err => Run.stop (.logPanic ("failed to parse response: " ++ err))
        | .unmarshalError err =>
          Run.stop (.logPanic ("failed to unmarshal response: " ++ err))
        | .ok result =>
          if !result.Sealed then Run.stop (.returned "vault unsealed, exiting")
          else attemptUnseal config w (i + 1) rest) := by
  simp only [attemptUnseal, hkey, hreq]

/-- The loop stops with success at the first response that is not sealed. -/
theorem attemptUnseal_unsealed (config : Config) (w : World)
    (hreq : w.newRequestError config.Endpoint = none) (keyIndexes : List Nat) (i n : Nat)
    (hlt : ∀ j ∈ keyIndexes, j < config.Keys.length) (hn : n < keyIndexes.length)
    (hbefore : ∀ j, j < n → ∃ res, w.unsealResult (i + j) = .ok res ∧ res.Sealed = true)
    (hat : ∃ res, w.unsealResult (i + n) = .ok res ∧ res.Sealed = false) :
    (attemptUnseal config w i keyIndexes).exit = some (.returned "vault unsealed, exiting") ∧
    (submittedKeys (attemptUnseal config w i keyIndexes).calls).map some =
      (keyIndexes.take (n + 1)).map (fun j => config.Keys[j]?) := by
  induction keyIndexes generalizing i n with
  | nil => simp at hn
  | cons a rest ih =>
    have ha : a < config.Keys.length := hlt a (List.mem_cons_self a rest)
    have hkey : config.Keys[a]? = some (config.Keys[a]) := List.getElem?_eq_getElem ha
    rw [attemptUnseal_cons config w i a rest _ hkey hreq]
    cases n with
    | zero =>
      obtain ⟨res, hres, hs⟩ := hat
      rw [Nat.add_zero] at hres
      simp [hres, hs, Run.after, Run.stop, submittedKeys, hkey]
    | succ n =>
      obtain ⟨res, hres, hs⟩ := hbefore 0 (Nat.succ_pos n)
      rw [Nat.add_zero] at hres
      have hrec := ih (i + 1) n (fun j hj => hlt j (List.mem_cons_of_mem a hj))
        (by simpa using hn)
        (fun j hj => by
          have := hbefore (j + 1) (Nat.succ_lt_succ hj)
          rwa [show i + (j + 1) = i + 1 + j by omega] at this)
        (by rwa [show i + (n + 1) = i + 1 + n by omega] at hat)
      simp [hres, hs, Run.after, submittedKeys, hkey, hrec.1, hrec.2]

/-- When every response is sealed, the loop submits every picked key and ends
in the final `log.Fatal`. -/
theorem attemptUnseal_sealed (config : Config) (w : World)
    (hreq : w.newRequestError config.Endpoint = none) (keyIndexes : List Nat) (i : Nat)
    (hlt : ∀ j ∈ keyIndexes, j < config.Keys.length)
    (hall : ∀ j, ∃ res, w.unsealResult j = .ok res ∧ res.Sealed = true) :
    (attemptUnseal config w i keyIndexes).exit = some (.logFatal "failed to unseal vault") ∧
    (submittedKeys (attemptUnseal config w i keyIndexes).calls).map some =
      keyIndexes.map (fun j => config.Keys[j]?) := by
  induction keyIndexes generalizing i with
  | nil => simp [attemptUnseal, Run.stop, submittedKeys]
  | cons a rest ih =>
    have ha : a < config.Keys.length := hlt a (List.mem_cons_self a rest)
    have hkey : config.Keys[a]? = some (config.Keys[a]) := List.getElem?_eq_getElem ha
    rw [attemptUnseal_cons config w i a rest _ hkey hreq]
    obtain ⟨res, hres, hs⟩ := hall i
    have hrec := ih (i + 1) (fun j hj => hlt j (List.mem_cons_of_mem a hj))
    simp [hres, hs, Run.after, submittedKeys, hkey, hrec.1, hrec.2]

/-- A submit request without a decoded response is the last request of the
loop, and the loop ends in `log.Fatal` or `log.Panic`. -/
theorem attemptUnseal_failed (config : Config) (w : World) (keyIndexes : List Nat) (i n : Nat)
    (hn : n < (attemptUnseal config w i keyIndexes).calls.length)
    (hfail : ∀ res, w.unsealResult (i + n) ≠ .ok res) :
    (attemptUnseal config w i keyIndexes).calls.length = n + 1 ∧
    ∃ msg, (attemptUnseal config w i keyIndexes).exit = some (.logFatal msg) ∨
      (attemptUnseal config w i keyIndexes).exit = some (.logPanic msg) := by
  induction keyIndexes generalizing i n with
  | nil => simp [attemptUnseal, Run.stop] at hn
  | cons a rest ih =>
    rcases hkey : config.Keys[a]? with _ | key
    · simp [attemptUnseal, hkey, Run.stop] at hn
    · rcases hreq : w.newRequestError config.Endpoint with _ | err
      · rw [attemptUnseal_cons config w i a rest key hkey hreq] at hn ⊢
        rcases hres : w.unsealResult i with err | err | err | result
        · simp only [hres, Run.after, Run.stop, List.length_cons, List.length_nil] at hn ⊢
          exact ⟨by omega, _, Or.inl rfl⟩
        · simp only [hres, Run.after, Run.stop, List.length_cons, List.length_nil] at hn ⊢
          exact ⟨by omega, _, Or.inr rfl⟩
        · simp only [hres, Run.after, Run.stop, List.length_cons, List.length_nil] at hn ⊢
          exact ⟨by omega, _, Or.inr rfl⟩
        · cases n with
          | zero => exact absurd (by simpa using hres) (hfail result)
          | succ n =>
            rcases hs : result.Sealed with _ | _
            · simp [hres, hs, Run.after, Run.stop] at hn
            · have hfail2 : ∀ res, w.unsealResult (i + 1 + n) ≠ .ok res := by
                rwa [show i + (n + 1) = i + 1 + n by omega] at hfail
              simp only [hres, hs, Run.after, List.length_cons] at hn ⊢
              have hrec := ih (i + 1) n (by simpa using hn) hfail2
              simpa using hrec
      · simp [attemptUnseal, hkey, hreq, Run.stop] at hn

/-! ## Lemmas on `main` -/

/-- The run of `main` when the submission loop is reached. -/
theorem main_reach (w : World) (fuel : Nat) (config : Config) (result : UnsealResponse)
    (keyIndexes : List Nat) (hc : w.configFile = .loaded config)
    (hreq : w.newRequestError config.Endpoint = none) (hh : w.healthResult = .response 503)
    (hreset : w.resetResult = .ok result) (hne : result.Threshold ≠ -1)
    (hle : result.Threshold ≤ (config.Keys.length : Int))
    (hpick : pickKeys result.Threshold config.Keys.length w.randInt fuel 0 [] =
      some (.ok keyIndexes)) :
    main w fuel =
      Run.after .healthCheck (Run.after .resetState (attemptUnseal config w 0 keyIndexes)) := by
  have hgt : ¬ result.Threshold > (config.Keys.length : Int) := by omega
  simp [main, hc, hreq, hh, resetUnsealState, hreset, unsealWith, hne, hgt, hpick]

/-- Every run of `main` either stops before the submission loop, after at
most the health and the reset request and without a runtime panic, or reaches
the loop with picked indexes. -/
theorem main_cases (w : World) (fuel : Nat) :
    ((((main w fuel).calls = [] ∨ (main w fuel).calls = [.healthCheck] ∨
        (main w fuel).calls = [.healthCheck, .resetState]) ∧
      ∀ msg, (main w fuel).exit ≠ some (.runtimeError msg)) ∨
    ∃ (config : Config) (result : UnsealResponse) (keyIndexes : List Nat),
      w.configFile = .loaded config ∧ w.newRequestError config.Endpoint = none ∧
      w.resetResult = .ok result ∧ result.Threshold ≤ (config.Keys.length : Int) ∧
      pickKeys result.Threshold config.Keys.length w.randInt fuel 0 [] = some (.ok keyIndexes) ∧
      main w fuel =
        Run.after .healthCheck (Run.after .resetState (attemptUnseal config w 0 keyIndexes))) := by
  rcases hc : w.configFile with err | err | config
  · left; simp [main, hc, Run.stop]
  · left; simp [main, hc, Run.stop]
  · rcases hreq : w.newRequestError config.Endpoint with _ | err
    · rcases hh : w.healthResult with err | StatusCode
      · left; simp [main, hc, hreq, hh, Run.stop, Run.after]
      · by_cases h503 : StatusCode = 503
        · subst h503
          rcases hreset : w.resetResult with err | err | err | result
          · left; simp [main, hc, hreq, hh, resetUnsealState, hreset, Run.stop, Run.after]
          · left; simp [main, hc, hreq, hh, resetUnsealState, hreset, Run.stop, Run.after]
          · left; simp [main, hc, hreq, hh, resetUnsealState, hreset, Run.stop, Run.after]
          · by_cases hne : result.Threshold = -1
            · left
              simp [main, hc, hreq, hh, resetUnsealState, hreset, unsealWith, hne, Run.stop,
                Run.after]
            · by_cases hgt : result.Threshold > (config.Keys.length : Int)
              · left
                simp [main, hc, hreq, hh, resetUnsealState, hreset, unsealWith, hne, hgt,
                  Run.stop, Run.after]
              · have hle : result.Threshold ≤ (config.Keys.length : Int) := by omega
                have hpick := pickKeys_eq result.Threshold config.Keys.length w.randInt hle fuel
                by_cases hd : result.Threshold.toNat ≤
                    (distinctValues (residue w.randInt config.Keys.length) fuel).length
                · rw [if_pos hd] at hpick
                  right
                  exact ⟨config, result, _, rfl, hreq, rfl, hle, hpick,
                    main_reach w fuel config result _ hc hreq hh hreset hne hle hpick⟩
                · rw [if_neg hd] at hpick
                  left
                  simp [main, hc, hreq, hh, resetUnsealState, hreset, unsealWith, hne, hgt,
                    hpick, Run.after]
        · left; simp [main, hc, hreq, hh, h503, Run.stop, Run.after]
    · left; simp [main, hc, hreq, Run.stop]

theorem attemptUnseal_submitted_length (config : Config) (w : World) (keyIndexes : List Nat)
    (i : Nat) :
    (submittedKeys (attemptUnseal config w i keyIndexes).calls).length =
      (attemptUnseal config w i keyIndexes).calls.length := by
  obtain ⟨k, ks, _, hcalls, _⟩ := attemptUnseal_calls config w keyIndexes i
  rw [hcalls, submittedKeys_map, List.length_map]

theorem length_eq_of_map_some (ks : List String) (l : List (Option String))
    (h : ks.map some = l) : ks.length = l.length := by
  rw [← h, List.length_map]

/-! ## The claims -/

/-- C1: when the health check is answered, status 503 makes `main` go on to the
reset request, and any other status makes it return at once: the health request
is the only request of the run. -/
theorem health_status_decides (w : World) (fuel : Nat) (config : Config) (StatusCode : Int)
    (hc : w.configFile = .loaded config) (hreq : w.newRequestError config.Endpoint = none)
    (hh : w.healthResult = .response StatusCode) :
    (StatusCode = 503 →
      ∃ rest, (main w fuel).calls = .healthCheck :: .resetState :: rest) ∧
    (StatusCode ≠ 503 →
      main w fuel = ⟨[.healthCheck], some (.returned "vault seems to be ok. exiting")⟩) := by
  constructor
  · intro h503
    subst h503
    exact ⟨_, by simp [main, hc, hreq, hh, resetUnsealState, Run.after]; rfl⟩
  · intro h503
    simp [main, hc, hreq, hh, h503, Run.after, Run.stop]

/-- C1 on the sample world, with status 503 and with status 200. -/
theorem health_status_decides_witness :
    (∃ rest, (main (sampleWorld 503 3 (fun _ => sampleResponse true)) 5).calls =
      .healthCheck :: .resetState :: rest) ∧
    main (sampleWorld 200 3 (fun _ => sampleResponse true)) 5 =
      ⟨[.healthCheck], some (.returned "vault seems to be ok. exiting")⟩ :=
  ⟨(health_status_decides (sampleWorld 503 3 (fun _ => sampleResponse true)) 5 sampleConfig 503
      rfl rfl rfl).1 rfl,
   (health_status_decides (sampleWorld 200 3 (fun _ => sampleResponse true)) 5 sampleConfig 200
      rfl rfl rfl).2 (by decide)⟩

/-- C4: when the threshold of the reset response exceeds the number of
configured keys, `main` ends in `log.Fatal` right after the reset request: no
key is submitted. -/
theorem not_enough_keys_fatal (w : World) (fuel : Nat) (config : Config)
    (result : UnsealResponse) (hc : w.configFile = .loaded config)
    (hreq : w.newRequestError config.Endpoint = none) (hh : w.healthResult = .response 503)
    (hreset : w.resetResult = .ok result)
    (hlt : (config.Keys.length : Int) < result.Threshold) :
    main w fuel = ⟨[.healthCheck, .resetState],
      some (.logFatal "there aren't enough keys in the config for proper unsealing")⟩ ∧
    submittedKeys (main w fuel).calls = [] := by
  have hne : result.Threshold ≠ -1 := by omega
  have hmain : main w fuel = ⟨[.healthCheck, .resetState],
      some (.logFatal "there aren't enough keys in the config for proper unsealing")⟩ := by
    simp [main, hc, hreq, hh, resetUnsealState, hreset, unsealWith, hne, hlt, Run.after,
      Run.stop]
  exact ⟨hmain, by rw [hmain]; rfl⟩

/-- C4 on the sample world: threshold 6 against five configured keys. -/
theorem not_enough_keys_fatal_witness :
    main (sampleWorld 503 6 (fun _ => sampleResponse false)) 9 = ⟨[.healthCheck, .resetState],
      some (.logFatal "there aren't enough keys in the config for proper unsealing")⟩ ∧
    submittedKeys (main (sampleWorld 503 6 (fun _ => sampleResponse false)) 9).calls = [] :=
  not_enough_keys_fatal (sampleWorld 503 6 (fun _ => sampleResponse false)) 9 sampleConfig
    ⟨true, 6, 5⟩ rfl rfl rfl rfl (by decide)

/-- C6: the requests of a run are nothing, or the health request alone, or the
health request, then one reset request, then submit requests only: no submit
request comes before the reset request or without it. -/
theorem reset_precedes_submits (w : World) (fuel : Nat) :
    (main w fuel).calls = [] ∨ (main w fuel).calls = [.healthCheck] ∨
    ∃ ks : List String,
      (main w fuel).calls = .healthCheck :: .resetState :: ks.map Call.submitKey := by
  rcases main_cases w fuel with ⟨h | h | h, _⟩ | ⟨config, result, keyIndexes, _, _, _, _, _, hm⟩
  · exact Or.inl h
  · exact Or.inr (Or.inl h)
  · exact Or.inr (Or.inr ⟨[], by simpa using h⟩)
  · obtain ⟨k, ks, _, hcalls, _⟩ := attemptUnseal_calls config w keyIndexes 0
    exact Or.inr (Or.inr ⟨ks, by rw [hm]; simp [Run.after, hcalls]⟩)

/-- C10: no run of `main` ends in a panic of the Go runtime, whatever the
configuration, the responses, the threshold and the draws: the modulo of the
picking loop is never by zero and `config.Keys[keyIndex]` is never out of
range. -/
theorem no_runtime_panic (w : World) (fuel : Nat) (msg : String) :
    (main w fuel).exit ≠ some (.runtimeError msg) := by
  rcases main_cases w fuel with ⟨_, h⟩ | ⟨config, result, keyIndexes, _, _, _, hle, hpick, hm⟩
  · exact h msg
  · rw [hm]
    have hlt := pickKeys_ok_lt result.Threshold config.Keys.length w.randInt hle fuel
      keyIndexes hpick
    simpa [Run.after] using attemptUnseal_no_runtimeError config w keyIndexes 0 hlt msg

/-- C2: in a run that reaches the submission loop with the picked indexes
`keyIndexes`, if the `i`-th submit response (counting from 1, `i` at most the
number of picked keys) is the first whose `sealed` field is false, then `main`
returns after logging "vault unsealed, exiting", having made exactly `i` submit
requests, those of the first `i` picked keys, and nothing after them. -/
theorem unsealed_stops_submitting (w : World) (fuel : Nat) (config : Config)
    (result : UnsealResponse) (keyIndexes : List Nat) (i : Nat)
    (hc : w.configFile = .loaded config) (hreq : w.newRequestError config.Endpoint = none)
    (hh : w.healthResult = .response 503) (hreset : w.resetResult = .ok result)
    (hne : result.Threshold ≠ -1) (hle : result.Threshold ≤ (config.Keys.length : Int))
    (hpick : pickKeys result.Threshold config.Keys.length w.randInt fuel 0 [] =
      some (.ok keyIndexes))
    (hi1 : 1 ≤ i) (hi2 : i ≤ keyIndexes.length)
    (hbefore : ∀ j, j + 1 < i → ∃ res, w.unsealResult j = .ok res ∧ res.Sealed = true)
    (hat : ∃ res, w.unsealResult (i - 1) = .ok res ∧ res.Sealed = false) :
    (main w fuel).exit = some (.returned "vault unsealed, exiting") ∧
    (submittedKeys (main w fuel).calls).length = i ∧
    (main w fuel).calls.length = i + 2 ∧
    (submittedKeys (main w fuel).calls).map some =
      (keyIndexes.take i).map (fun j => config.Keys[j]?) := by
  have hm := main_reach w fuel config result keyIndexes hc hreq hh hreset hne hle hpick
  have hlt := pickKeys_ok_lt result.Threshold config.Keys.length w.randInt hle fuel
    keyIndexes hpick
  obtain ⟨n, rfl⟩ : ∃ n, i = n + 1 := ⟨i - 1, by omega⟩
  have hloop := attemptUnseal_unsealed config w hreq keyIndexes 0 n hlt (by omega)
    (fun j hj => by simpa using hbefore j (by omega)) (by simpa using hat)
  have hsub : submittedKeys (main w fuel).calls =
      submittedKeys (attemptUnseal config w 0 keyIndexes).calls := by
    rw [hm]; rfl
  have hlen : (submittedKeys (attemptUnseal config w 0 keyIndexes).calls).length = n + 1 := by
    rw [length_eq_of_map_some _ _ hloop.2, List.length_map, List.length_take]
    omega
  refine ⟨by rw [hm]; simpa [Run.after] using hloop.1, by rw [hsub, hlen], ?_,
    by rw [hsub]; exact hloop.2⟩
  rw [attemptUnseal_submitted_length] at hlen
  rw [hm]
  simp [Run.after, hlen]

/-- C2 on the sample world: threshold 3, picked indexes 4, 1, 2, and the second
submit response is the first that is not sealed. -/
theorem unsealed_stops_submitting_witness :
    (main (sampleWorld 503 3 (fun j => sampleResponse (decide (j < 1)))) 5).exit =
      some (.returned "vault unsealed, exiting") ∧
    (submittedKeys
      (main (sampleWorld 503 3 (fun j => sampleResponse (decide (j < 1)))) 5).calls).length = 2 ∧
    (main (sampleWorld 503 3 (fun j => sampleResponse (decide (j < 1)))) 5).calls.length = 2 + 2 ∧
    (submittedKeys
      (main (sampleWorld 503 3 (fun j => sampleResponse (decide (j < 1)))) 5).calls).map some =
      ([4, 1, 2].take 2).map (fun j => sampleConfig.Keys[j]?) :=
  unsealed_stops_submitting (sampleWorld 503 3 (fun j => sampleResponse (decide (j < 1)))) 5
    sampleConfig ⟨true, 3, 5⟩ [4, 1, 2] 2 rfl rfl rfl rfl (by decide) (by decide) rfl
    (by decide) (by decide)
    (fun j hj => ⟨⟨true, 3, 5⟩, by
      have h0 : j = 0 := by omega
      subst h0
      exact ⟨rfl, rfl⟩⟩)
    ⟨⟨false, 3, 5⟩, rfl, rfl⟩

/-- C3: for a threshold `t` of the reset response with `0 ≤ t ≤ len(keys)`, if
every submit response has `sealed` true and the first `fuel` draws hold at
least `t` distinct residues (so that the picking loop finishes within them),
then `main` makes exactly `t` submit requests and ends in
`log.Fatal("failed to unseal vault")`. -/
theorem exhausted_keys_fatal (w : World) (fuel : Nat) (config : Config)
    (result : UnsealResponse) (hc : w.configFile = .loaded config)
    (hreq : w.newRequestError config.Endpoint = none) (hh : w.healthResult = .response 503)
    (hreset : w.resetResult = .ok result) (h0 : 0 ≤ result.Threshold)
    (hle : result.Threshold ≤ (config.Keys.length : Int))
    (hall : ∀ j, ∃ res, w.unsealResult j = .ok res ∧ res.Sealed = true)
    (hdraws : result.Threshold ≤
      (distinctCount (residue w.randInt config.Keys.length) fuel : Int)) :
    (main w fuel).exit = some (.logFatal "failed to unseal vault") ∧
    ((submittedKeys (main w fuel).calls).length : Int) = result.Threshold ∧
    ((main w fuel).calls.length : Int) = result.Threshold + 2 := by
  have hne : result.Threshold ≠ -1 := by omega
  have hd : result.Threshold.toNat ≤
      (distinctValues (residue w.randInt config.Keys.length) fuel).length := by
    rw [length_distinctValues]; omega
  have hpick := pickKeys_eq result.Threshold config.Keys.length w.randInt hle fuel
  rw [if_pos hd] at hpick
  have hm := main_reach w fuel config result _ hc hreq hh hreset hne hle hpick
  have hlt := pickKeys_ok_lt result.Threshold config.Keys.length w.randInt hle fuel _ hpick
  have hlen := pickKeys_ok_length result.Threshold config.Keys.length w.randInt hle fuel _ hpick
  have hloop := attemptUnseal_sealed config w hreq _ 0 hlt hall
  have hsub := length_eq_of_map_some _ _ hloop.2
  rw [List.length_map, hlen] at hsub
  have hcalls := attemptUnseal_submitted_length config w
    ((distinctValues (residue w.randInt config.Keys.length) fuel).take result.Threshold.toNat) 0
  rw [hsub] at hcalls
  rw [hm]
  refine ⟨by simpa [Run.after] using hloop.1, ?_, ?_⟩
  · show ((submittedKeys (attemptUnseal config w 0 _).calls).length : Int) = result.Threshold
    rw [hsub]; omega
  · simp only [Run.after, List.length_cons]
    rw [← hcalls]; push_cast; omega

/-- C3 on the sample world: threshold 3, shares 5, five distinct keys, every
submit response sealed, five draws. -/
theorem exhausted_keys_fatal_witness :
    (main (sampleWorld 503 3 (fun _ => sampleResponse true)) 5).exit =
      some (.logFatal "failed to unseal vault") ∧
    ((submittedKeys (main (sampleWorld 503 3 (fun _ => sampleResponse true)) 5).calls).length
      : Int) = 3 ∧
    ((main (sampleWorld 503 3 (fun _ => sampleResponse true)) 5).calls.length : Int) = 3 + 2 :=
  exhausted_keys_fatal (sampleWorld 503 3 (fun _ => sampleResponse true)) 5 sampleConfig
    ⟨true, 3, 5⟩ rfl rfl rfl rfl (by decide) (by decide)
    (fun _ => ⟨⟨true, 3, 5⟩, rfl, rfl⟩) (by decide)

/-- C5: for a threshold with `0 ≤ threshold ≤ len(keys)` (a threshold is a
count of key shares), and every stream of draws on which the picking loop
finishes, the picked list has exactly `threshold` indexes, has no repeated
index, and holds only indexes below the number of keys. -/
theorem selection_distinct_in_range (keys : List String) (threshold : Int)
    (randInt : Nat → Nat) (fuel : Nat) (keyIndexes : List Nat)
    (h0 : 0 ≤ threshold) (hle : threshold ≤ (keys.length : Int))
    (hpick : pickKeys threshold keys.length randInt fuel 0 [] = some (.ok keyIndexes)) :
    (keyIndexes.length : Int) = threshold ∧
    keyIndexes.Nodup ∧ ∀ i ∈ keyIndexes, i < keys.length := by
  have hlen := pickKeys_ok_length threshold keys.length randInt hle fuel keyIndexes hpick
  exact ⟨by omega,
    pickKeys_ok_nodup threshold keys.length randInt hle fuel keyIndexes hpick,
    pickKeys_ok_lt threshold keys.length randInt hle fuel keyIndexes hpick⟩

/-- C5 on the sample draws: threshold 3 among five keys picks 4, 1, 2. -/
theorem selection_distinct_in_range_witness :
    (([4, 1, 2] : List Nat).length : Int) = 3 ∧
    ([4, 1, 2] : List Nat).Nodup ∧ ∀ i ∈ ([4, 1, 2] : List Nat), i < sampleConfig.Keys.length :=
  selection_distinct_in_range sampleConfig.Keys 3 sampleDraws 5 [4, 1, 2] (by decide)
    (by decide) rfl

/-- C7: in a run whose picking loop returns `keyIndexes`, the keys submitted
are, in order, the configured keys at the first `k` picked indexes for some
`k`: the `j`-th submit request carries `config.Keys[keyIndexes[j]]`. These
indexes are pairwise distinct and every submitted key is a configured key. -/
theorem submits_follow_selection (w : World) (fuel : Nat) (config : Config)
    (result : UnsealResponse) (keyIndexes : List Nat)
    (hc : w.configFile = .loaded config) (hreset : w.resetResult = .ok result)
    (hpick : pickKeys result.Threshold config.Keys.length w.randInt fuel 0 [] =
      some (.ok keyIndexes)) :
    ∃ k, k ≤ keyIndexes.length ∧
      (submittedKeys (main w fuel).calls).map some =
        (keyIndexes.take k).map (fun j => config.Keys[j]?) ∧
      (keyIndexes.take k).Nodup ∧
      ∀ key ∈ submittedKeys (main w fuel).calls, key ∈ config.Keys := by
  rcases main_cases w fuel with ⟨h, _⟩ | ⟨config2, result2, keyIndexes2, hc2, _, hreset2, hle,
    hpick2, hm⟩
  · have hnil : submittedKeys (main w fuel).calls = [] := by
      rcases h with h | h | h <;> rw [h] <;> rfl
    exact ⟨0, Nat.zero_le _, by simp [hnil], by simp, by simp [hnil]⟩
  · rw [hc] at hc2
    injection hc2 with hc2
    subst hc2
    rw [hreset] at hreset2
    injection hreset2 with hreset2
    subst hreset2
    rw [hpick] at hpick2
    injection hpick2 with hpick2
    injection hpick2 with hpick2
    subst hpick2
    obtain ⟨k, ks, hk, hcalls, hks⟩ := attemptUnseal_calls config w keyIndexes 0
    have hsub : submittedKeys (main w fuel).calls = ks := by
      rw [hm]
      show submittedKeys (attemptUnseal config w 0 keyIndexes).calls = ks
      rw [hcalls, submittedKeys_map]
    refine ⟨k, hk, by rw [hsub, hks], ?_, ?_⟩
    · exact List.Nodup.sublist (List.take_sublist _ _)
        (pickKeys_ok_nodup result.Threshold config.Keys.length w.randInt hle fuel keyIndexes
          hpick)
    · intro key hkey
      rw [hsub] at hkey
      have hmem : some key ∈ ks.map some := List.mem_map_of_mem some hkey
      rw [hks, List.mem_map] at hmem
      obtain ⟨j, _, hj⟩ := hmem
      exact List.getElem?_mem hj

/-- C7 on the sample world: the picked indexes are 4, 1, 2 and two keys are
submitted. -/
theorem submits_follow_selection_witness :
    ∃ k, k ≤ ([4, 1, 2] : List Nat).length ∧
      (submittedKeys
        (main (sampleWorld 503 3 (fun j => sampleResponse (decide (j < 1)))) 5).calls).map some =
        (([4, 1, 2] : List Nat).take k).map (fun j => sampleConfig.Keys[j]?) ∧
      (([4, 1, 2] : List Nat).take k).Nodup ∧
      ∀ key ∈ submittedKeys
        (main (sampleWorld 503 3 (fun j => sampleResponse (decide (j < 1)))) 5).calls,
        key ∈ sampleConfig.Keys :=
  submits_follow_selection (sampleWorld 503 3 (fun j => sampleResponse (decide (j < 1)))) 5
    sampleConfig ⟨true, 3, 5⟩ [4, 1, 2] rfl rfl rfl

/-- C8: if the reset request is made and yields no decoded response (the
transport fails, the body cannot be read or is not JSON), it is the last
request of the run and the run ends in `log.Fatal` or `log.Panic`. If the submit
request of loop index `k` (the `k + 1`-th) is made and yields no decoded
response, it is the last request of the run: `k + 1` submit requests and
`k + 3` requests in all, and the run ends in `log.Fatal` or `log.Panic`. -/
theorem failed_request_aborts (w : World) (fuel : Nat) :
    (Call.resetState ∈ (main w fuel).calls → (∀ res, w.resetResult ≠ .ok res) →
      (main w fuel).calls = [.healthCheck, .resetState] ∧
      ∃ msg, (main w fuel).exit = some (.logFatal msg) ∨
        (main w fuel).exit = some (.logPanic msg)) ∧
    (∀ k, k < (submittedKeys (main w fuel).calls).length →
      (∀ res, w.unsealResult k ≠ .ok res) →
      (submittedKeys (main w fuel).calls).length = k + 1 ∧
      (main w fuel).calls.length = k + 3 ∧
      ∃ msg, (main w fuel).exit = some (.logFatal msg) ∨
        (main w fuel).exit = some (.logPanic msg)) := by
  constructor
  · intro hmem hfail
    rcases hc : w.configFile with err | err | config
    · simp [main, hc, Run.stop] at hmem
    · simp [main, hc, Run.stop] at hmem
    · rcases hreq : w.newRequestError config.Endpoint with _ | err
      · rcases hh : w.healthResult with err | StatusCode
        · simp [main, hc, hreq, hh, Run.stop, Run.after] at hmem
        · by_cases h503 : StatusCode = 503
          · subst h503
            rcases hreset : w.resetResult with err | err | err | result
            · simp [main, hc, hreq, hh, resetUnsealState, hreset, Run.stop, Run.after]
            · simp [main, hc, hreq, hh, resetUnsealState, hreset, Run.stop, Run.after]
            · simp [main, hc, hreq, hh, resetUnsealState, hreset, Run.stop, Run.after]
            · exact absurd hreset (hfail result)
          · simp [main, hc, hreq, hh, h503, Run.stop, Run.after] at hmem
      · simp [main, hc, hreq, Run.stop] at hmem
  · intro k hk hfail
    rcases main_cases w fuel with ⟨h, _⟩ | ⟨config, result, keyIndexes, _, _, _, _, _, hm⟩
    · have hnil : submittedKeys (main w fuel).calls = [] := by
        rcases h with h | h | h <;> rw [h] <;> rfl
      rw [hnil] at hk
      simp at hk
    · have hsub : submittedKeys (main w fuel).calls =
          submittedKeys (attemptUnseal config w 0 keyIndexes).calls := by
        rw [hm]; rfl
      rw [hsub, attemptUnseal_submitted_length] at hk
      have hloop := attemptUnseal_failed config w keyIndexes 0 k hk (by simpa using hfail)
      refine ⟨by rw [hsub, attemptUnseal_submitted_length]; exact hloop.1, ?_, ?_⟩
      · rw [hm]; simp [Run.after, hloop.1]
      · rw [hm]; simpa [Run.after] using hloop.2

/-- C8 on the sample world: a reset response that is not JSON, and a transport
error on the second submit request. -/
theorem failed_request_aborts_witness :
    ((main (sampleResetWorld (.unmarshalError "unexpected end of JSON input")) 5).calls =
        [.healthCheck, .resetState] ∧
      ∃ msg, (main (sampleResetWorld (.unmarshalError "unexpected end of JSON input")) 5).exit =
          some (.logFatal msg) ∨
        (main (sampleResetWorld (.unmarshalError "unexpected end of JSON input")) 5).exit =
          some (.logPanic msg)) ∧
    ((submittedKeys (main (sampleWorld 503 3
        (fun j => if j < 1 then sampleResponse true else .doError "timeout")) 5).calls).length
        = 1 + 1 ∧
      (main (sampleWorld 503 3
        (fun j => if j < 1 then sampleResponse true else .doError "timeout")) 5).calls.length
        = 1 + 3 ∧
      ∃ msg, (main (sampleWorld 503 3
          (fun j => if j < 1 then sampleResponse true else .doError "timeout")) 5).exit =
          some (.logFatal msg) ∨
        (main (sampleWorld 503 3
          (fun j => if j < 1 then sampleResponse true else .doError "timeout")) 5).exit =
          some (.logPanic msg)) :=
  ⟨(failed_request_aborts (sampleResetWorld (.unmarshalError "unexpected end of JSON input"))
      5).1 (by decide) (fun res h => DoResult.noConfusion h),
   (failed_request_aborts (sampleWorld 503 3
      (fun j => if j < 1 then sampleResponse true else .doError "timeout")) 5).2 1
      (by decide) (fun res h => DoResult.noConfusion h)⟩

/-- C9: for a threshold `t` at most the number `m` of keys (in particular for
`0 ≤ t ≤ m`) and any stream of draws, the picking loop finishes for some fuel if
and only if some beginning of the stream of residues modulo `m` holds at least
`t` distinct values; whenever it finishes, it returns the first `t` distinct
residues in order of first occurrence; and an iteration leaves the selection
unchanged when the residue drawn is already selected and appends it
otherwise. -/
theorem picking_terminates_iff (neededKeys : Int) (numKeys : Nat) (randInt : Nat → Nat)
    (hle : neededKeys ≤ (numKeys : Int)) :
    ((∃ fuel, pickKeys neededKeys numKeys randInt fuel 0 [] ≠ none) ↔
      ∃ n, neededKeys ≤ (distinctCount (residue randInt numKeys) n : Int)) ∧
    (∀ fuel out, pickKeys neededKeys numKeys randInt fuel 0 [] = some out →
      ∀ n, neededKeys ≤ (distinctCount (residue randInt numKeys) n : Int) →
        out = .ok ((distinctValues (residue randInt numKeys) n).take neededKeys.toNat)) ∧
    (∀ fuel pos keyIndexes, (keyIndexes.length : Int) < neededKeys →
      pickKeys neededKeys numKeys randInt (fuel + 1) pos keyIndexes =
        pickKeys neededKeys numKeys randInt fuel (pos + 1)
          (if residue randInt numKeys pos ∈ keyIndexes then keyIndexes
           else keyIndexes ++ [residue randInt numKeys pos])) := by
  refine ⟨⟨?_, ?_⟩, ?_, ?_⟩
  · rintro ⟨fuel, hfuel⟩
    rw [pickKeys_eq neededKeys numKeys randInt hle fuel] at hfuel
    by_cases hd : neededKeys.toNat ≤ (distinctValues (residue randInt numKeys) fuel).length
    · rw [length_distinctValues] at hd
      exact ⟨fuel, by omega⟩
    · rw [if_neg hd] at hfuel
      exact absurd rfl hfuel
  · rintro ⟨n, hn⟩
    have hd : neededKeys.toNat ≤ (distinctValues (residue randInt numKeys) n).length := by
      rw [length_distinctValues]; omega
    exact ⟨n, by rw [pickKeys_eq neededKeys numKeys randInt hle n, if_pos hd]; simp⟩
  · intro fuel out hout n hn
    have hdn : neededKeys.toNat ≤ (distinctValues (residue randInt numKeys) n).length := by
      rw [length_distinctValues]; omega
    rw [pickKeys_eq neededKeys numKeys randInt hle fuel] at hout
    by_cases hd : neededKeys.toNat ≤ (distinctValues (residue randInt numKeys) fuel).length
    · rw [if_pos hd] at hout
      injection hout with hout
      rw [← hout, take_distinctValues_eq _ fuel n _ hd hdn]
    · rw [if_neg hd] at hout
      exact absurd hout (by simp)
  · intro fuel pos keyIndexes hlt
    have hpos : numKeys ≠ 0 := by omega
    rw [pickKeys, if_pos hlt, if_neg hpos]
    simp only []
    by_cases hmem : residue randInt numKeys pos ∈ keyIndexes
    · have hk : keyExists keyIndexes (randInt pos % numKeys) = true :=
        (keyExists_eq_true_iff _ _).2 hmem
      rw [if_pos hmem, hk]
      rfl
    · have hk : keyExists keyIndexes (randInt pos % numKeys) = false := by
        rw [Bool.eq_false_iff]
        exact fun h => hmem ((keyExists_eq_true_iff _ _).1 h)
      rw [if_neg hmem, hk]
      rfl

/-- C9 on the sample draws: the loop returns 4, 1, 2, the first three distinct
residues modulo 5. -/
theorem picking_terminates_iff_witness :
    (Except.ok [4, 1, 2] : Except String (List Nat)) =
      .ok ((distinctValues (residue sampleDraws 5) 6).take (3 : Int).toNat) :=
  (picking_terminates_iff 3 5 sampleDraws (by decide)).2.1 5 (.ok [4, 1, 2]) rfl 6 (by decide)

end VaultAutounseal
